import Mathlib

/-!
Verification development for the hybrid public-key encryption core
(multi-recipient envelope encryption with sign-then-encrypt composition)
described by the repository's specification.  The repository's own sources
contain only the TypeScript facade (`src/src/interfaces.ts`), a worker
`encrypt` function and the `makePublicKey` helper; the engine itself is
therefore modelled from the specification, with the underlying
cryptographic primitives idealized as injective functions.
-/

namespace VirgilSpec

/-- Byte strings are modelled as lists of (unbounded) naturals.  Using
unbounded "bytes" lets the ideal primitives below be genuinely injective. -/
abbrev Bytes := List Nat

/-- Injective encoding of a byte list into a single natural, the basis of
every idealized primitive (hash, KDF, MAC, signature) in this model. -/
def encL : Bytes → Nat
  | [] => 0
  | a :: l => Nat.pair a (encL l) + 1

/-- Modelled from the spec: the distinguishing value of the ideal SHA-512
digest of `m` (the injective content carried in the digest's first byte). -/
def sha512val (m : Bytes) : Nat := encL m

/-- Modelled from the spec: ideal SHA-512 (a 64-byte digest whose first
byte carries an injective encoding of the input).  The real hash lives in
the native crypto library, which is not part of src/. -/
def sha512 (m : Bytes) : Bytes := sha512val m :: List.replicate 63 0

/-- Modelled from the spec: ideal SHA-256 (a 32-byte digest whose first
byte carries an injective encoding of the input). -/
def sha256 (m : Bytes) : Bytes := encL m :: List.replicate 31 0

/-- Modelled from the spec: the key-derivation function turning a
Diffie-Hellman shared secret plus a context (the recipient identifier)
into the per-recipient key-wrapping key K2. -/
def kdf (s : Nat) (ctx : Bytes) : Nat := encL (s :: ctx)

/-- Modelled from the spec: the AEAD authentication tag over (key, nonce,
message); ideal, hence injective in all three arguments jointly. -/
def mac (k n : Nat) (m : Bytes) : Nat := encL (k :: n :: m)

/-- Modelled from the spec: Diffie-Hellman shared-secret computation,
symbolically a commutative product of the two scalars (public keys are
identified with their scalars in this symbolic model). -/
def dh (sk pk : Nat) : Nat := sk * pk

/-- Modelled from the spec: AEAD encryption appends the ideal
authentication tag to the plaintext. -/
def aeadEnc (k n : Nat) (m : Bytes) : Bytes := m ++ [mac k n m]

/-- Modelled from the spec: AEAD decryption checks the trailing tag and
returns the body, or `none` on any authentication failure. -/
def aeadDec (k n : Nat) (c : Bytes) : Option Bytes :=
  if c = c.dropLast ++ [mac k n c.dropLast] then some c.dropLast else none

/-- Key-identifier derivation: first 8 bytes of SHA-512 of the DER bytes
under the current scheme, full SHA-256 under the legacy scheme
(per `IVirgilCrypto.useSha256Identifiers` documentation). -/
def keyIdOf (useSha256 : Bool) (der : Bytes) : Bytes :=
  if useSha256 then sha256 der else (sha512 der).take 8

/-- Public key handle: identifier plus key material (`VirgilPublicKey`). -/
structure VirgilPublicKey where
  identifier : Bytes
  key : Nat
deriving DecidableEq

/-- Private key handle: identifier plus the secret scalar
(`VirgilPrivateKey`; the identifier equals the matching public key's). -/
structure VirgilPrivateKey where
  identifier : Bytes
  sk : Nat
deriving DecidableEq

/-- Modelled from the spec: DER export of public key material. -/
def exportPublicKey (pk : Nat) : Bytes := [pk]

/-- The honest public key handle for secret scalar `sk`, under the current
identifier scheme. -/
def pubKeyOf (sk : Nat) : VirgilPublicKey :=
  ⟨keyIdOf false (exportPublicKey sk), sk⟩

/-- The honest private key handle for secret scalar `sk`. -/
def privKeyOf (sk : Nat) : VirgilPrivateKey :=
  ⟨keyIdOf false (exportPublicKey sk), sk⟩

/-- One per-recipient entry of the envelope (spec §3 RecipientKeyWrap). -/
structure RecipientKeyWrap where
  recipientIdentifier : Bytes
  ephemeralPublicKey : Nat
  wrappedBulkKey : Nat
deriving DecidableEq

/-- Envelope metadata (spec §3 ContentInfo): the ordered recipient wraps
plus the bulk-cipher nonce/IV. -/
structure ContentInfo where
  wraps : List RecipientKeyWrap
  nonce : Nat
deriving DecidableEq

/-- Modelled from the spec (§4.2 step 3): build the RecipientKeyWrap for
one recipient — ephemeral scalar `e`, shared secret by Diffie-Hellman,
K2 by KDF with the recipient identifier as context, and K1 wrapped under
K2 with a deterministic symmetric cipher (modelled as XOR). -/
def wrapFor (k1 e : Nat) (pub : VirgilPublicKey) : RecipientKeyWrap :=
  ⟨pub.identifier, e, k1 ^^^ kdf (dh e pub.key) pub.identifier⟩

/-- Serialization of one RecipientKeyWrap: identifier length, identifier
bytes, ephemeral public key, wrapped bulk key. -/
def serWrap (w : RecipientKeyWrap) : Bytes :=
  w.recipientIdentifier.length ::
    (w.recipientIdentifier ++ [w.ephemeralPublicKey, w.wrappedBulkKey])

/-- Self-describing serialization of ContentInfo: recipient count, then
the serialized wraps, then the nonce. -/
def serCI (ci : ContentInfo) : Bytes :=
  ci.wraps.length :: ((ci.wraps.map serWrap).flatten ++ [ci.nonce])

/-- Parse `n` serialized RecipientKeyWrap entries, returning them together
with the unconsumed remainder. -/
def parseWraps : Nat → Bytes → Option (List RecipientKeyWrap × Bytes)
  | 0, bs => some ([], bs)
  | _ + 1, [] => none
  | n + 1, len :: bs =>
    match bs.drop len with
    | e :: wk :: rest =>
      (parseWraps n rest).map (fun p => (⟨bs.take len, e, wk⟩ :: p.1, p.2))
    | _ => none

/-- Parse a serialized ContentInfo; fails unless the bytes are consumed
exactly. -/
def parseCI (bs : Bytes) : Option ContentInfo :=
  match bs with
  | [] => none
  | n :: rest =>
    match parseWraps n rest with
    | some (ws, [nonce]) => some ⟨ws, nonce⟩
    | _ => none

/-- The error taxonomy of spec §7. -/
inductive CryptoError where
  | invalidArgument
  | primitiveError
  | recipientNotFound
  | integrityCheckFailed
deriving DecidableEq

/-- Modelled from the spec (§4.2 encrypt): generate the per-recipient
wraps from the ephemeral scalars `ephs`, serialize the ContentInfo and
prepend it, length-prefixed, to the AEAD bulk ciphertext.  Randomness
(`k1`, `nonce`, `ephs`) is passed explicitly. -/
def encryptWith (data : Bytes) (pubs : List VirgilPublicKey)
    (k1 nonce : Nat) (ephs : List Nat) : Bytes :=
  let sci := serCI ⟨List.zipWith (wrapFor k1) ephs pubs, nonce⟩
  sci.length :: (sci ++ aeadEnc k1 nonce data)

/-- Modelled from the spec (§4.2 decrypt, steps 2-4): scan the wraps of a
parsed ContentInfo for one whose `recipientIdentifier` equals
`privateKey.identifier` (hard stop with `recipientNotFound` otherwise),
recompute K2, unwrap K1 and AEAD-decrypt the bulk ciphertext; any
authentication failure surfaces as `integrityCheckFailed`. -/
def decryptParsed (ci : ContentInfo) (bulk : Bytes)
    (priv : VirgilPrivateKey) : Except CryptoError Bytes :=
  match ci.wraps.find?
      (fun w => w.recipientIdentifier == priv.identifier) with
  | none => .error .recipientNotFound
  | some w =>
    match aeadDec
        (w.wrappedBulkKey ^^^
          kdf (dh priv.sk w.ephemeralPublicKey) w.recipientIdentifier)
        ci.nonce bulk with
    | some d => .ok d
    | none => .error .integrityCheckFailed

/-- Modelled from the spec (§4.2 decrypt, step 1 plus the embedded
layout): split off the length-prefixed ContentInfo, parse it and continue
with `decryptParsed`; malformed structure is a `primitiveError`. -/
def decryptWith (msg : Bytes) (priv : VirgilPrivateKey) :
    Except CryptoError Bytes :=
  match msg with
  | [] => .error .primitiveError
  | l :: rest =>
    if l ≤ rest.length then
      match parseCI (rest.take l) with
      | none => .error .primitiveError
      | some ci => decryptParsed ci (rest.drop l) priv
    else .error .primitiveError

/-- Modelled from the spec (§4.3): signature over the SHA-512 digest of
the data, bound to the signer's scalar; ideal, hence injective. -/
def sign (sk : Nat) (m : Bytes) : Nat := encL [sk, sha512val m]

/-- Modelled from the spec (§4.3): signature verification against a
public key (symbolically, the key's scalar). -/
def verify (m : Bytes) (sig : Nat) (pub : VirgilPublicKey) : Bool :=
  sig == encL [pub.key, sha512val m]

/-- Modelled from the spec (§3 SignedPayload):
data || encoded-signature-length || signature. -/
def signedPayload (data : Bytes) (sig : Nat) : Bytes := data ++ [1, sig]

/-- Modelled from the spec (§4.3): split a SignedPayload back into data
and signature using the stored length. -/
def splitSignedPayload (p : Bytes) : Option (Bytes × Nat) :=
  match p.reverse with
  | sig :: len :: rest => if len = 1 then some (rest.reverse, sig) else none
  | _ => none

/-- Trial verification of the signature against each candidate public
key; succeeding against any one is sufficient (spec §4.3, §9). -/
def verifyAny (data : Bytes) (sig : Nat)
    (pubs : List VirgilPublicKey) : Bool :=
  pubs.any (fun p => verify data sig p)

/-- Modelled from the spec (§4.3): the post-decryption stage shared by
`decryptThenVerify` and its detached variant — split the SignedPayload
and trial-verify against the candidate keys; decryption errors propagate,
and verification failure against every candidate raises
`integrityCheckFailed`. -/
def verifyStage (r : Except CryptoError Bytes)
    (pubs : List VirgilPublicKey) : Except CryptoError Bytes :=
  match r with
  | .error e => .error e
  | .ok payload =>
    match splitSignedPayload payload with
    | none => .error .primitiveError
    | some (data, sig) =>
      if verifyAny data sig pubs then .ok data
      else .error .integrityCheckFailed

/-- Modelled from the spec (§4.3 signThenEncrypt): sign, build the
SignedPayload, and hand it to the Hybrid Cipher Engine `encrypt`. -/
def signThenEncryptWith (data : Bytes) (priv : VirgilPrivateKey)
    (pubs : List VirgilPublicKey) (k1 nonce : Nat) (ephs : List Nat) :
    Bytes :=
  encryptWith (signedPayload data (sign priv.sk data)) pubs k1 nonce ephs

/-- Modelled from the spec (§4.3 decryptThenVerify, embedded variant). -/
def decryptThenVerifyWith (msg : Bytes) (priv : VirgilPrivateKey)
    (pubs : List VirgilPublicKey) : Except CryptoError Bytes :=
  verifyStage (decryptWith msg priv) pubs

/-- Modelled from the spec (§4.2 detached mode): the bulk ciphertext and
the ContentInfo returned as separate buffers. -/
def encryptDetachedWith (data : Bytes) (pubs : List VirgilPublicKey)
    (k1 nonce : Nat) (ephs : List Nat) : Bytes × Bytes :=
  (aeadEnc k1 nonce data,
    serCI ⟨List.zipWith (wrapFor k1) ephs pubs, nonce⟩)

/-- Modelled from the spec (§4.2 decrypt with supplied metadata). -/
def decryptDetachedWith (enc meta : Bytes) (priv : VirgilPrivateKey) :
    Except CryptoError Bytes :=
  match parseCI meta with
  | none => .error .primitiveError
  | some ci => decryptParsed ci enc priv

/-- Modelled from the spec (§4.3 detached variant of signThenEncrypt). -/
def signThenEncryptDetachedWith (data : Bytes) (priv : VirgilPrivateKey)
    (pubs : List VirgilPublicKey) (k1 nonce : Nat) (ephs : List Nat) :
    Bytes × Bytes :=
  encryptDetachedWith (signedPayload data (sign priv.sk data))
    pubs k1 nonce ephs

/-- Modelled from the spec (§4.3 detached variant of decryptThenVerify). -/
def decryptThenVerifyDetachedWith (enc meta : Bytes)
    (priv : VirgilPrivateKey) (pubs : List VirgilPublicKey) :
    Except CryptoError Bytes :=
  verifyStage (decryptDetachedWith enc meta priv) pubs

/-- Flip bit `j` of the byte at position `p` (out-of-range positions
leave the message unchanged). -/
def flipBit (msg : Bytes) (p j : Nat) : Bytes :=
  msg.set p (msg.getD p 0 ^^^ 2 ^ j)

/-- The crypto-engine instance configuration (`VirgilCryptoOptions` and
`IVirgilCrypto.useSha256Identifiers`): the identifier scheme is a field
of the instance, fixed at construction. -/
structure VirgilCrypto where
  useSha256Identifiers : Bool
deriving DecidableEq

/-- Key-identifier calculation of an engine instance: the scheme is read
from the instance configuration, never from a per-call argument. -/
def calculateKeypairIdentifier (c : VirgilCrypto) (der : Bytes) : Bytes :=
  keyIdOf c.useSha256Identifiers der

/-- JS-level rejection values: a typed failure object from the error
taxonomy, or a plain message string (what `deferred.reject(e.message)`
passes). -/
inductive RejectValue where
  | typed (e : CryptoError)
  | rawMessage (s : String)
deriving DecidableEq

/-- Outcome of the worker function's deferred. -/
inductive WorkerOutcome where
  | resolved (value : Bytes)
  | rejected (value : RejectValue)
deriving DecidableEq

/-- An error thrown by the native cipher, carrying its message. -/
structure NativeError where
  message : String
deriving DecidableEq

/-- Modelled from the spec (§1: encoding conversion is thin plumbing):
base64 decoding of worker inputs, an identity coding on byte strings. -/
def virgilBase64decode (b : Bytes) : Bytes := b

/-- Base64 encoding of the worker result, identity coding. -/
def virgilBase64encode (b : Bytes) : Bytes := b

/-- The password-recipient list built by the worker: one password
recipient when a password is supplied (`if (password) ...`). -/
def workerRecipients (password : Option Bytes) : List Bytes :=
  match password with
  | some pw => [virgilBase64decode pw]
  | none => []

/-- The worker encrypt function of `src/unnamed/part_000`: constructs a
`VirgilCipher`, optionally adds a password recipient, encrypts, resolves
with the base64-encoded result or rejects with the caught error's
`message` string, and deletes the cipher in a `finally` block.  The
native `virgilCipher.encrypt` behaviour is the `encryptFn` parameter;
the second component of the result records whether
`virgilCipher.delete()` ran. -/
def workerEncrypt
    (encryptFn : List Bytes → Bytes → Bool → Except NativeError Bytes)
    (initialData : Bytes) (password : Option Bytes)
    (isEmbeddedContentInfo : Bool) : WorkerOutcome × Bool :=
  match encryptFn (workerRecipients password)
      (virgilBase64decode initialData) isEmbeddedContentInfo with
  | .ok r => (.resolved (virgilBase64encode r), true)
  | .error e => (.rejected (.rawMessage e.message), true)

/-- Whether an outcome is a rejection carrying a typed failure object. -/
def isTypedRejection : WorkerOutcome → Bool
  | .rejected (.typed _) => true
  | _ => false

/-- A JavaScript value as far as `makePublicKey.js` distinguishes them:
primitives, Buffers, and objects carrying `publicKey` / `recipientId`
properties (a missing property is `undefined`). -/
inductive JsVal where
  | undefined
  | nullv
  | boolean (b : Bool)
  | number (n : Int)
  | str (s : String)
  | buffer (bytes : List Nat)
  | obj (publicKey : JsVal) (recipientId : JsVal)
deriving DecidableEq

/-- JavaScript truthiness (`!!v`). -/
def truthy : JsVal → Bool
  | .undefined => false
  | .nullv => false
  | .boolean b => b
  | .number n => n != 0
  | .str s => s != ""
  | .buffer _ => true
  | .obj _ _ => true

/-- `utils.isBuffer`. -/
def isBuffer : JsVal → Bool
  | .buffer _ => true
  | _ => false

/-- `utils.isObjectLike` (Buffers are object-like too; the Buffer branch
of `makePublicKey` runs first so this only matters for plain objects). -/
def isObjectLike : JsVal → Bool
  | .buffer _ => true
  | .obj _ _ => true
  | _ => false

/-- Property access `v.publicKey` (`undefined` when absent). -/
def getPublicKeyProp : JsVal → JsVal
  | .obj pk _ => pk
  | _ => .undefined

/-- Property access `v.recipientId` (`undefined` when absent). -/
def getRecipientIdProp : JsVal → JsVal
  | .obj _ rid => rid
  | _ => .undefined

/-- `utils.bufferToByteArray`, modelled as the identity marshalling into
the native byte-array type. -/
def bufferToByteArray (v : JsVal) : JsVal := v

/-- The `PublicKey` wrapper of `makePublicKey.js`: the converted key and
`recipientId ? bufferToByteArray(recipientId) : null`
(`none` models `null`). -/
structure PublicKey where
  publicKey : JsVal
  recipientId : Option JsVal
deriving DecidableEq

/-- The `PublicKey` constructor of `makePublicKey.js`. -/
def mkPublicKey (key recipientId : JsVal) : PublicKey :=
  ⟨bufferToByteArray key,
    if truthy recipientId then some (bufferToByteArray recipientId)
    else none⟩

/-- `makePublicKey(publicKey, recipientId)` from
`src/src/node/helpers/makePublicKey.js`; a thrown `VirgilCryptoError` is
an `Except.error` carrying the message. -/
def makePublicKey (publicKey recipientId : JsVal) :
    Except String PublicKey :=
  if isBuffer publicKey then
    if truthy recipientId && !isBuffer recipientId then
      .error "Unexpected type of recipientId argument. Expected recipientId to be a Buffer."
    else .ok (mkPublicKey publicKey recipientId)
  else if isObjectLike publicKey && truthy (getPublicKeyProp publicKey) then
    .ok (mkPublicKey (getPublicKeyProp publicKey)
      (getRecipientIdProp publicKey))
  else
    .error "Unexpected type of publicKey argument. Expected publicKey to be a Buffer or a hash with publicKey property."

theorem encL_injective : ∀ {l1 l2 : Bytes}, encL l1 = encL l2 → l1 = l2 := by
  intro l1
  induction l1 with
  | nil =>
    intro l2 h
    cases l2 with
    | nil => rfl
    | cons b t => simp [encL] at h
  | cons a t ih =>
    intro l2 h
    cases l2 with
    | nil => simp [encL] at h
    | cons b t2 =>
      simp only [encL, Nat.add_right_cancel_iff] at h
      have h1 := congrArg Nat.unpair h
      rw [Nat.unpair_pair, Nat.unpair_pair] at h1
      have ha : a = b := congrArg Prod.fst h1
      have ht : encL t = encL t2 := congrArg Prod.snd h1
      rw [ha, ih ht]

theorem mac_injective {k k' n n' : Nat} {m m' : Bytes}
    (h : mac k n m = mac k' n' m') : k = k' ∧ n = n' ∧ m = m' := by
  have h2 := encL_injective h
  simp only [List.cons.injEq] at h2
  exact h2

theorem aeadDec_aeadEnc (k n : Nat) (m : Bytes) :
    aeadDec k n (aeadEnc k n m) = some m := by
  simp [aeadDec, aeadEnc, List.dropLast_concat]

theorem aeadDec_eq_some {k n : Nat} {c d : Bytes}
    (h : aeadDec k n c = some d) : c = d ++ [mac k n d] := by
  unfold aeadDec at h
  by_cases hc : c = c.dropLast ++ [mac k n c.dropLast]
  · rw [if_pos hc] at h
    have hd : c.dropLast = d := Option.some.injEq _ _ ▸ h
    rw [← hd]
    exact hc
  · rw [if_neg hc] at h
    exact absurd h (by simp)

theorem keyIdOf_current_injective {a b : Bytes}
    (h : keyIdOf false a = keyIdOf false b) : a = b := by
  simp only [keyIdOf, Bool.false_eq_true, if_false, sha512,
    List.take_succ_cons, List.cons.injEq] at h
  exact encL_injective h.1

theorem parseWraps_ser (ws : List RecipientKeyWrap) (r : Bytes) :
    parseWraps ws.length ((ws.map serWrap).flatten ++ r) = some (ws, r) := by
  induction ws generalizing r with
  | nil => simp [parseWraps]
  | cons w t ih =>
    have hd : ((w :: t).map serWrap).flatten ++ r
        = w.recipientIdentifier.length ::
          (w.recipientIdentifier ++
            (w.ephemeralPublicKey :: w.wrappedBulkKey ::
              ((t.map serWrap).flatten ++ r))) := by
      simp [serWrap]
    rw [hd, List.length_cons, parseWraps]
    have hdrop : (w.recipientIdentifier ++
        (w.ephemeralPublicKey :: w.wrappedBulkKey ::
          ((t.map serWrap).flatten ++ r))).drop w.recipientIdentifier.length
        = w.ephemeralPublicKey :: w.wrappedBulkKey ::
          ((t.map serWrap).flatten ++ r) := List.drop_left _ _
    rw [hdrop]
    simp only [List.take_left, ih]
    rfl

theorem parseCI_ser (ci : ContentInfo) : parseCI (serCI ci) = some ci := by
  show parseCI
    (ci.wraps.length :: ((ci.wraps.map serWrap).flatten ++ [ci.nonce]))
    = some ci
  simp only [parseCI, parseWraps_ser]

theorem zipWith_mem_of_lt {α β γ : Type} {f : α → β → γ} :
    ∀ {as : List α} {bs : List β} {i : Nat}
      (h1 : i < as.length) (h2 : i < bs.length),
      f (as.get ⟨i, h1⟩) (bs.get ⟨i, h2⟩) ∈ List.zipWith f as bs := by
  intro as
  induction as with
  | nil => intro bs i h1 _; exact absurd h1 (by simp)
  | cons a t ih =>
    intro bs i h1 h2
    cases bs with
    | nil => exact absurd h2 (by simp)
    | cons b tb =>
      cases i with
      | zero => exact List.mem_cons_self _ _
      | succ j =>
        exact List.mem_cons_of_mem _
          (ih (Nat.lt_of_succ_lt_succ h1) (Nat.lt_of_succ_lt_succ h2))

theorem mem_zipWith_exists {α β γ : Type} {f : α → β → γ} {c : γ} :
    ∀ {as : List α} {bs : List β}, c ∈ List.zipWith f as bs →
      ∃ (i : Nat) (h1 : i < as.length) (h2 : i < bs.length),
        c = f (as.get ⟨i, h1⟩) (bs.get ⟨i, h2⟩) := by
  intro as
  induction as with
  | nil => intro bs h; simp at h
  | cons a t ih =>
    intro bs h
    cases bs with
    | nil => simp at h
    | cons b tb =>
      simp only [List.zipWith_cons_cons, List.mem_cons] at h
      cases h with
      | inl he =>
        exact ⟨0, by simp, by simp, he⟩
      | inr hm =>
        obtain ⟨j, h1, h2, he⟩ := ih hm
        exact ⟨j + 1, Nat.succ_lt_succ h1, Nat.succ_lt_succ h2, he⟩

theorem xor_xor_cancel (a b : Nat) : (a ^^^ b) ^^^ b = a := by
  rw [Nat.xor_assoc, Nat.xor_self, Nat.xor_zero]

/-- Decrypting an embedded envelope is splitting off the serialized
ContentInfo and continuing with `decryptParsed`. -/
theorem decryptWith_embed (ci : ContentInfo) (c : Bytes)
    (priv : VirgilPrivateKey) :
    decryptWith ((serCI ci).length :: (serCI ci ++ c)) priv =
      decryptParsed ci c priv := by
  have hle : (serCI ci).length ≤ (serCI ci ++ c).length := by
    rw [List.length_append]; exact Nat.le_add_right _ _
  simp only [decryptWith, if_pos hle, List.take_left, List.drop_left,
    parseCI_ser]

/-- Honestly encrypting for the public keys of `sks` and decrypting with
the private key of `sks[i]` always recovers the bulk key and nonce: the
result is exactly the AEAD decryption of whatever bulk bytes follow the
ContentInfo. -/
theorem decryptParsed_honest (sks ephs : List Nat) (k1 nonce : Nat)
    (i : Nat) (hi : i < sks.length) (hlen : ephs.length = sks.length)
    (c : Bytes) :
    decryptParsed ⟨List.zipWith (wrapFor k1) ephs (sks.map pubKeyOf), nonce⟩
      c (privKeyOf (sks.get ⟨i, hi⟩)) =
    (match aeadDec k1 nonce c with
     | some d => Except.ok d
     | none => Except.error CryptoError.integrityCheckFailed) := by
  have hiM : i < (sks.map pubKeyOf).length := by simpa using hi
  have hiE : i < ephs.length := by rw [hlen]; exact hi
  have hmemi : wrapFor k1 (ephs.get ⟨i, hiE⟩)
      ((sks.map pubKeyOf).get ⟨i, hiM⟩) ∈
      List.zipWith (wrapFor k1) ephs (sks.map pubKeyOf) :=
    zipWith_mem_of_lt hiE hiM
  have hpredi : ((wrapFor k1 (ephs.get ⟨i, hiE⟩)
      ((sks.map pubKeyOf).get ⟨i, hiM⟩)).recipientIdentifier ==
      (privKeyOf (sks.get ⟨i, hi⟩)).identifier) = true := by
    simp only [wrapFor, List.get_eq_getElem, List.getElem_map, pubKeyOf, privKeyOf, beq_iff_eq]
  cases hfind : (List.zipWith (wrapFor k1) ephs (sks.map pubKeyOf)).find?
      (fun w => w.recipientIdentifier ==
        (privKeyOf (sks.get ⟨i, hi⟩)).identifier) with
  | none =>
    exfalso
    exact (List.find?_eq_none.mp hfind _ hmemi) hpredi
  | some w =>
    have hpred := List.find?_some hfind
    have hmem := List.mem_of_find?_eq_some hfind
    obtain ⟨j, h1, h2, he⟩ := mem_zipWith_exists hmem
    have h2s : j < sks.length := by simpa using h2
    have hgetm : (sks.map pubKeyOf).get ⟨j, h2⟩
        = pubKeyOf (sks.get ⟨j, h2s⟩) := by
      simp [List.get_eq_getElem, List.getElem_map]
    have hids : (sks.get ⟨j, h2s⟩) = (sks.get ⟨i, hi⟩) := by
      rw [he, hgetm] at hpred
      simp only [wrapFor, pubKeyOf, privKeyOf, beq_iff_eq] at hpred
      have h3 := keyIdOf_current_injective hpred
      simp only [exportPublicKey, List.cons.injEq, and_true] at h3
      exact h3
    have hkey : w.wrappedBulkKey ^^^
        kdf (dh (privKeyOf (sks.get ⟨i, hi⟩)).sk w.ephemeralPublicKey)
          w.recipientIdentifier = k1 := by
      rw [he, hgetm]
      simp only [wrapFor, pubKeyOf, privKeyOf, dh]
      rw [← hids, Nat.mul_comm]
      exact xor_xor_cancel _ _
    simp only [decryptParsed, hfind, hkey]

/-- Claim C1: for every data buffer, every non-empty honest recipient key
list and every index `i`, decrypting the output of `encrypt` with the
private key matching the `i`-th public key returns exactly the data
(the single-recipient case is a list of length one). -/
theorem claim_C1_multi_recipient_round_trip
    (data : Bytes) (sks ephs : List Nat) (k1 nonce : Nat) (i : Nat)
    (hi : i < sks.length) (hlen : ephs.length = sks.length) :
    decryptWith (encryptWith data (sks.map pubKeyOf) k1 nonce ephs)
      (privKeyOf (sks.get ⟨i, hi⟩)) = .ok data := by
  show decryptWith
      ((serCI ⟨List.zipWith (wrapFor k1) ephs (sks.map pubKeyOf), nonce⟩).length ::
        (serCI ⟨List.zipWith (wrapFor k1) ephs (sks.map pubKeyOf), nonce⟩ ++
          aeadEnc k1 nonce data))
      (privKeyOf (sks.get ⟨i, hi⟩)) = .ok data
  rw [decryptWith_embed, decryptParsed_honest sks ephs k1 nonce i hi hlen,
    aeadDec_aeadEnc]

/-- Witness for claim C1 at a concrete instance. -/
theorem claim_C1_witness :
    decryptWith (encryptWith [7] ([2].map pubKeyOf) 5 6 [3])
      (privKeyOf (([2] : List Nat).get ⟨0, by decide⟩)) = .ok [7] :=
  claim_C1_multi_recipient_round_trip [7] [2] [3] 5 6 0 (by decide) (by decide)

/-- Claim C3: decrypting data encrypted for key pair A with the private
key of a distinct key pair B fails with `recipientNotFound`: the wrap scan
matches on `recipientIdentifier` and stops hard when nothing matches. -/
theorem claim_C3_wrong_key_rejection (data : Bytes) (a b e k1 nonce : Nat)
    (hne : b ≠ a) :
    decryptWith (encryptWith data [pubKeyOf a] k1 nonce [e]) (privKeyOf b)
      = .error .recipientNotFound := by
  show decryptWith
      ((serCI ⟨List.zipWith (wrapFor k1) [e] [pubKeyOf a], nonce⟩).length ::
        (serCI ⟨List.zipWith (wrapFor k1) [e] [pubKeyOf a], nonce⟩ ++
          aeadEnc k1 nonce data)) (privKeyOf b) = _
  rw [decryptWith_embed]
  have hfind : (List.zipWith (wrapFor k1) [e] [pubKeyOf a]).find?
      (fun w => w.recipientIdentifier == (privKeyOf b).identifier)
      = none := by
    rw [List.find?_eq_none]
    intro x hx
    have hx2 : x = wrapFor k1 e (pubKeyOf a) := by simpa using hx
    subst hx2
    simp only [wrapFor, pubKeyOf, privKeyOf, beq_iff_eq]
    intro hpred
    have h3 := keyIdOf_current_injective hpred
    simp only [exportPublicKey, List.cons.injEq, and_true] at h3
    exact hne h3.symm
  simp only [decryptParsed, hfind]

/-- Witness for claim C3 at a concrete instance. -/
theorem claim_C3_witness :
    decryptWith (encryptWith [0] [pubKeyOf 1] 0 0 [0]) (privKeyOf 2)
      = .error .recipientNotFound :=
  claim_C3_wrong_key_rejection [0] 1 2 0 0 0 (by decide)

theorem splitSignedPayload_mk (data : Bytes) (sig : Nat) :
    splitSignedPayload (signedPayload data sig) = some (data, sig) := by
  simp [splitSignedPayload, signedPayload, List.reverse_append]

theorem decryptDetachedWith_ser (ci : ContentInfo) (c : Bytes)
    (priv : VirgilPrivateKey) :
    decryptDetachedWith c (serCI ci) priv = decryptParsed ci c priv := by
  simp only [decryptDetachedWith, parseCI_ser]

theorem decrypt_encrypt_single (data : Bytes) (s e k1 nonce : Nat) :
    decryptWith (encryptWith data [pubKeyOf s] k1 nonce [e])
      (privKeyOf s) = .ok data := by
  have h : decryptParsed ⟨List.zipWith (wrapFor k1) [e] [pubKeyOf s], nonce⟩
      (aeadEnc k1 nonce data) (privKeyOf s) =
      (match aeadDec k1 nonce (aeadEnc k1 nonce data) with
       | some d => Except.ok d
       | none => Except.error CryptoError.integrityCheckFailed) :=
    decryptParsed_honest [s] [e] k1 nonce 0 (by simp) (by simp)
      (aeadEnc k1 nonce data)
  show decryptWith
      ((serCI ⟨List.zipWith (wrapFor k1) [e] [pubKeyOf s], nonce⟩).length ::
        (serCI ⟨List.zipWith (wrapFor k1) [e] [pubKeyOf s], nonce⟩ ++
          aeadEnc k1 nonce data)) (privKeyOf s) = .ok data
  rw [decryptWith_embed, h, aeadDec_aeadEnc]

theorem sha512val_injective {a b : Bytes} (h : sha512val a = sha512val b) :
    a = b := encL_injective h

/-- Decrypt-then-verify of an honest single-recipient sign-then-encrypt
reduces to the trial verification over the candidate key list. -/
theorem decryptThenVerify_honest (data : Bytes) (sS sR e k1 nonce : Nat)
    (vpubs : List VirgilPublicKey) :
    decryptThenVerifyWith
      (signThenEncryptWith data (privKeyOf sS) [pubKeyOf sR] k1 nonce [e])
      (privKeyOf sR) vpubs =
    if verifyAny data (sign sS data) vpubs then .ok data
    else .error .integrityCheckFailed := by
  simp only [decryptThenVerifyWith, signThenEncryptWith,
    decrypt_encrypt_single, verifyStage, splitSignedPayload_mk]
  rfl

/-- Claim C4: decryptThenVerify of signThenEncrypt returns exactly the
data, and mutating the data breaks verification of the original signature
over the mutated data. -/
theorem claim_C4_sign_encrypt_round_trip (data : Bytes)
    (sS sR e k1 nonce : Nat) :
    decryptThenVerifyWith
      (signThenEncryptWith data (privKeyOf sS) [pubKeyOf sR] k1 nonce [e])
      (privKeyOf sR) [pubKeyOf sS] = .ok data
    ∧ ∀ d' : Bytes, d' ≠ data →
      verify d' (sign sS data) (pubKeyOf sS) = false := by
  constructor
  · rw [decryptThenVerify_honest]
    have hv : verifyAny data (sign sS data) [pubKeyOf sS] = true := by
      simp [verifyAny, verify, sign, pubKeyOf]
    simp [hv]
  · intro d' hne
    simp only [verify, sign, pubKeyOf, beq_eq_false_iff_ne, ne_eq]
    intro hcontra
    have h1 := encL_injective hcontra
    simp only [List.cons.injEq, and_true] at h1
    exact hne (sha512val_injective h1.2).symm

/-- Witness for claim C4 at a concrete instance. -/
theorem claim_C4_witness :
    decryptThenVerifyWith
      (signThenEncryptWith [3] (privKeyOf 1) [pubKeyOf 2] 0 0 [0])
      (privKeyOf 2) [pubKeyOf 1] = .ok [3]
    ∧ verify [4] (sign 1 [3]) (pubKeyOf 1) = false :=
  ⟨(claim_C4_sign_encrypt_round_trip [3] 1 2 0 0 0).1,
   (claim_C4_sign_encrypt_round_trip [3] 1 2 0 0 0).2 [4] (by decide)⟩

/-- Claim C5: the detached variant produces the same result as the
embedded variant on the same logical inputs, for every decrypting key and
every candidate verification list. -/
theorem claim_C5_detached_equivalence (data : Bytes)
    (privS : VirgilPrivateKey) (pubs : List VirgilPublicKey)
    (k1 nonce : Nat) (ephs : List Nat) (privR : VirgilPrivateKey)
    (vpubs : List VirgilPublicKey) :
    decryptThenVerifyDetachedWith
      (signThenEncryptDetachedWith data privS pubs k1 nonce ephs).1
      (signThenEncryptDetachedWith data privS pubs k1 nonce ephs).2
      privR vpubs
    = decryptThenVerifyWith
        (signThenEncryptWith data privS pubs k1 nonce ephs) privR vpubs := by
  show verifyStage
      (decryptDetachedWith
        (aeadEnc k1 nonce (signedPayload data (sign privS.sk data)))
        (serCI ⟨List.zipWith (wrapFor k1) ephs pubs, nonce⟩) privR) vpubs
    = verifyStage
      (decryptWith
        ((serCI ⟨List.zipWith (wrapFor k1) ephs pubs, nonce⟩).length ::
          (serCI ⟨List.zipWith (wrapFor k1) ephs pubs, nonce⟩ ++
            aeadEnc k1 nonce (signedPayload data (sign privS.sk data))))
        privR) vpubs
  rw [decryptWith_embed, decryptDetachedWith_ser]

/-- Claim C7: with one candidate key the call succeeds exactly when the
signature verifies under it; with several it succeeds exactly when some
candidate verifies; when decryption succeeds but no candidate verifies,
the error is `integrityCheckFailed`. -/
theorem claim_C7_multi_candidate_policy (data : Bytes)
    (sS sR e k1 nonce : Nat) (vpubs : List VirgilPublicKey) :
    (∀ p : VirgilPublicKey, vpubs = [p] →
      (decryptThenVerifyWith
        (signThenEncryptWith data (privKeyOf sS) [pubKeyOf sR] k1 nonce [e])
        (privKeyOf sR) vpubs = .ok data ↔
        verify data (sign sS data) p = true))
    ∧ (decryptThenVerifyWith
        (signThenEncryptWith data (privKeyOf sS) [pubKeyOf sR] k1 nonce [e])
        (privKeyOf sR) vpubs = .ok data ↔
        ∃ p ∈ vpubs, verify data (sign sS data) p = true)
    ∧ ((∀ p ∈ vpubs, verify data (sign sS data) p = false) →
        decryptThenVerifyWith
          (signThenEncryptWith data (privKeyOf sS) [pubKeyOf sR] k1 nonce [e])
          (privKeyOf sR) vpubs = .error .integrityCheckFailed) := by
  have hgen : ∀ ps : List VirgilPublicKey,
      (decryptThenVerifyWith
        (signThenEncryptWith data (privKeyOf sS) [pubKeyOf sR] k1 nonce [e])
        (privKeyOf sR) ps = .ok data ↔
        ∃ p ∈ ps, verify data (sign sS data) p = true) := by
    intro ps
    rw [decryptThenVerify_honest]
    constructor
    · intro hok
      by_cases hany : verifyAny data (sign sS data) ps = true
      · simpa [verifyAny] using hany
      · rw [if_neg hany] at hok
        exact absurd hok (by simp)
    · intro hex
      have hany : verifyAny data (sign sS data) ps = true := by
        simpa [verifyAny] using hex
      rw [if_pos hany]
  refine ⟨?_, hgen vpubs, ?_⟩
  · intro p hp
    rw [hp, hgen [p]]
    simp
  · intro hall
    rw [decryptThenVerify_honest, if_neg]
    intro hany
    simp only [verifyAny, List.any_eq_true] at hany
    obtain ⟨x, hx, hvx⟩ := hany
    rw [hall x hx] at hvx
    exact absurd hvx (by simp)

/-- Witness for claim C7 at concrete instances of each conjunct. -/
theorem claim_C7_witness :
    (decryptThenVerifyWith
      (signThenEncryptWith [3] (privKeyOf 1) [pubKeyOf 2] 0 0 [0])
      (privKeyOf 2) [pubKeyOf 1] = .ok [3] ↔
      verify [3] (sign 1 [3]) (pubKeyOf 1) = true)
    ∧ decryptThenVerifyWith
      (signThenEncryptWith [3] (privKeyOf 1) [pubKeyOf 2] 0 0 [0])
      (privKeyOf 2) [pubKeyOf 9] = .error .integrityCheckFailed :=
  ⟨(claim_C7_multi_candidate_policy [3] 1 2 0 0 0 [pubKeyOf 1]).1
      (pubKeyOf 1) rfl,
   (claim_C7_multi_candidate_policy [3] 1 2 0 0 0 [pubKeyOf 9]).2.2
      (by decide)⟩

theorem flipBit_cons_zero (a : Nat) (l : Bytes) (j : Nat) :
    flipBit (a :: l) 0 j = (a ^^^ 2 ^ j) :: l := by
  simp [flipBit]

theorem flipBit_cons_succ (a : Nat) (l : Bytes) (q j : Nat) :
    flipBit (a :: l) (q + 1) j = a :: flipBit l q j := by
  simp [flipBit]

theorem xor_two_pow_ne_self (a j : Nat) : a ^^^ 2 ^ j ≠ a := by
  intro h
  have h2 : a ^^^ (a ^^^ 2 ^ j) = a ^^^ a := congrArg (a ^^^ ·) h
  rw [← Nat.xor_assoc, Nat.xor_self, Nat.zero_xor] at h2
  exact (Nat.two_pow_pos j).ne' h2

theorem aeadDec_append_ne {k n : Nat} {body : Bytes} {z : Nat}
    (hz : z ≠ mac k n body) : aeadDec k n (body ++ [z]) = none := by
  have hcond : ¬(body ++ [z] = body ++ [mac k n body]) := by
    intro hcontra
    have h2 := List.append_cancel_left hcontra
    simp only [List.cons.injEq, and_true] at h2
    exact hz h2
  unfold aeadDec
  rw [List.dropLast_concat, if_neg hcond]

theorem getLast?_drop_of_lt {α : Type} {l : List α} {n : Nat}
    (h : n < l.length) : (l.drop n).getLast? = l.getLast? := by
  conv_rhs => rw [← List.take_append_drop n l]
  rw [List.getLast?_append]
  cases hl : (l.drop n).getLast? with
  | none =>
    have hne : l.drop n ≠ [] := by
      apply List.ne_nil_of_length_pos
      rw [List.length_drop]
      omega
    exact absurd (List.getLast?_eq_none_iff.mp hl) hne
  | some a => simp

/-- Anatomy of a successful decryption: the message splits into a length
prefix and a remainder whose dropped part carries a valid AEAD tag. -/
theorem decryptWith_ok_shape {msg : Bytes} {priv : VirgilPrivateKey}
    {d' : Bytes} (h : decryptWith msg priv = .ok d') :
    ∃ l rest k n, msg = l :: rest ∧ l ≤ rest.length ∧
      rest.drop l = d' ++ [mac k n d'] := by
  cases msg with
  | nil => exact absurd h (by simp [decryptWith])
  | cons l rest =>
    refine ⟨l, rest, ?_⟩
    simp only [decryptWith] at h
    by_cases hle : l ≤ rest.length
    · rw [if_pos hle] at h
      cases hci : parseCI (rest.take l) with
      | none =>
        simp only [hci] at h
        exact Except.noConfusion h
      | some ci =>
        simp only [hci, decryptParsed] at h
        cases hfind : ci.wraps.find?
            (fun w => w.recipientIdentifier == priv.identifier) with
        | none =>
          simp only [hfind] at h
          exact Except.noConfusion h
        | some w =>
          simp only [hfind] at h
          cases haead : aeadDec
              (w.wrappedBulkKey ^^^
                kdf (dh priv.sk w.ephemeralPublicKey) w.recipientIdentifier)
              ci.nonce (rest.drop l) with
          | none =>
            simp only [haead] at h
            exact Except.noConfusion h
          | some d2 =>
            simp only [haead, Except.ok.injEq] at h
            subst h
            exact ⟨_, ci.nonce, rfl, hle, aeadDec_eq_some haead⟩
    · rw [if_neg hle] at h
      exact absurd h (by simp)

/-- Claim C2 (amended): for an honest encryption, flipping any single bit
of the bulk ciphertext makes decryption with a matching private key fail
with `integrityCheckFailed`; and no single-bit flip anywhere in the
message (ContentInfo and length prefix included) can make decryption
return altered plaintext — any successful decryption still returns
exactly the original data. -/
theorem claim_C2_tamper_detection (data : Bytes) (sks ephs : List Nat)
    (k1 nonce : Nat) (i : Nat) (hi : i < sks.length)
    (hlen : ephs.length = sks.length) :
    (∀ p j : Nat,
      (serCI ⟨List.zipWith (wrapFor k1) ephs (sks.map pubKeyOf),
        nonce⟩).length < p →
      p < (encryptWith data (sks.map pubKeyOf) k1 nonce ephs).length →
      decryptWith
        (flipBit (encryptWith data (sks.map pubKeyOf) k1 nonce ephs) p j)
        (privKeyOf (sks.get ⟨i, hi⟩)) = .error .integrityCheckFailed)
    ∧ (∀ (p j : Nat) (d' : Bytes),
        decryptWith
          (flipBit (encryptWith data (sks.map pubKeyOf) k1 nonce ephs) p j)
          (privKeyOf (sks.get ⟨i, hi⟩)) = .ok d' → d' = data) := by
  have hmsg : encryptWith data (sks.map pubKeyOf) k1 nonce ephs
      = (serCI ⟨List.zipWith (wrapFor k1) ephs (sks.map pubKeyOf),
          nonce⟩).length ::
        (serCI ⟨List.zipWith (wrapFor k1) ephs (sks.map pubKeyOf), nonce⟩ ++
          aeadEnc k1 nonce data) := rfl
  set S := serCI ⟨List.zipWith (wrapFor k1) ephs (sks.map pubKeyOf), nonce⟩
    with hS
  set B := aeadEnc k1 nonce data with hB
  have hBdef : B = data ++ [mac k1 nonce data] := hB
  have hBlen : B.length = data.length + 1 := by rw [hBdef]; simp
  constructor
  · intro p j hp1 hp2
    obtain ⟨q, rfl⟩ : ∃ q, p = q + 1 := ⟨p - 1, by omega⟩
    obtain ⟨r, rfl⟩ : ∃ r, q = S.length + r := ⟨q - S.length, by omega⟩
    have hrB : r < B.length := by
      rw [hmsg] at hp2
      simp only [List.length_cons, List.length_append] at hp2
      omega
    have hsimp : S.length + r - S.length = r := by omega
    rw [hmsg, flipBit_cons_succ]
    have hy : (S ++ B).getD (S.length + r) 0 = B.getD r 0 := by
      rw [List.getD_eq_getElem?_getD, List.getD_eq_getElem?_getD,
        List.getElem?_append_right (by omega), hsimp]
    have hset : flipBit (S ++ B) (S.length + r) j
        = S ++ B.set r (B.getD r 0 ^^^ 2 ^ j) := by
      simp only [flipBit, hy]
      rw [List.set_append_right _ _ (by omega), hsimp]
    rw [hset, hS, decryptWith_embed,
      decryptParsed_honest sks ephs k1 nonce i hi hlen]
    have hnone : aeadDec k1 nonce (B.set r (B.getD r 0 ^^^ 2 ^ j)) = none := by
      by_cases hrd : r < data.length
      · have hyv : B.getD r 0 = data.getD r 0 := by
          rw [hBdef, List.getD_eq_getElem?_getD, List.getD_eq_getElem?_getD,
            List.getElem?_append_left hrd]
        have hsetB : B.set r (B.getD r 0 ^^^ 2 ^ j)
            = data.set r (data.getD r 0 ^^^ 2 ^ j)
              ++ [mac k1 nonce data] := by
          rw [hyv, hBdef, List.set_append_left _ _ hrd]
        rw [hsetB]
        apply aeadDec_append_ne
        intro hcontra
        have hdd := (mac_injective hcontra).2.2
        have hq := congrArg (fun t => t[r]?) hdd
        simp only [List.getElem?_set_self hrd] at hq
        have h1 : data[r]? = some data[r] := List.getElem?_eq_getElem hrd
        have h2 : data.getD r 0 = data[r] := by
          rw [List.getD_eq_getElem?_getD, h1]
          rfl
        rw [h1, h2] at hq
        have h3 : data[r] = data[r] ^^^ 2 ^ j := by simpa using hq
        exact xor_two_pow_ne_self (data[r]) j h3.symm
      · have hr_eq : r = data.length := by omega
        subst hr_eq
        have hyv : B.getD data.length 0 = mac k1 nonce data := by
          rw [hBdef, List.getD_eq_getElem?_getD,
            List.getElem?_append_right (Nat.le_refl _)]
          simp
        have hsetB : B.set data.length (B.getD data.length 0 ^^^ 2 ^ j)
            = data ++ [mac k1 nonce data ^^^ 2 ^ j] := by
          rw [hyv, hBdef, List.set_append_right _ _ (Nat.le_refl _)]
          simp
        rw [hsetB]
        exact aeadDec_append_ne (xor_two_pow_ne_self _ j)
    rw [hnone]
  · intro p j d' hok
    rw [hmsg] at hok
    cases p with
    | zero =>
      rw [flipBit_cons_zero] at hok
      obtain ⟨l, rest, k, n, hcons, hle, hdrop⟩ := decryptWith_ok_shape hok
      injection hcons with hl hrest
      subst hrest
      subst hl
      have hne : (S ++ B).drop (S.length ^^^ 2 ^ j) ≠ [] := by
        rw [hdrop]; simp
      have hlt : (S.length ^^^ 2 ^ j) < (S ++ B).length := by
        by_contra hge
        push_neg at hge
        exact hne (List.drop_eq_nil_of_le hge)
      have hlast := getLast?_drop_of_lt hlt
      rw [hdrop, List.getLast?_concat] at hlast
      have hlastSB : (S ++ B).getLast? = some (mac k1 nonce data) := by
        rw [hBdef, ← List.append_assoc, List.getLast?_concat]
      rw [hlastSB] at hlast
      have hmacs : mac k n d' = mac k1 nonce data := by simpa using hlast
      exact (mac_injective hmacs).2.2
    | succ q =>
      rw [flipBit_cons_succ] at hok
      obtain ⟨l, rest, k, n, hcons, hle, hdrop⟩ := decryptWith_ok_shape hok
      injection hcons with hl hrest
      subst hrest
      subst hl
      by_cases hq : q < S.length
      · have hset2 : flipBit (S ++ B) q j
            = S.set q ((S ++ B).getD q 0 ^^^ 2 ^ j) ++ B := by
          simp only [flipBit]
          exact List.set_append_left _ _ hq
        have hXlen : (S.set q ((S ++ B).getD q 0 ^^^ 2 ^ j)).length
            = S.length := List.length_set _ _ _
        have hdropB : (flipBit (S ++ B) q j).drop S.length = B := by
          rw [hset2, ← hXlen, List.drop_left]
        rw [hdropB, hBdef] at hdrop
        exact (List.append_inj' hdrop rfl).1.symm
      · push_neg at hq
        obtain ⟨r, rfl⟩ : ∃ r, q = S.length + r := ⟨q - S.length, by omega⟩
        have hsimp : S.length + r - S.length = r := by omega
        have hset2 : flipBit (S ++ B) (S.length + r) j
            = S ++ B.set r ((S ++ B).getD (S.length + r) 0 ^^^ 2 ^ j) := by
          simp only [flipBit]
          rw [List.set_append_right _ _ (by omega), hsimp]
        have hdropB : (flipBit (S ++ B) (S.length + r) j).drop S.length
            = B.set r ((S ++ B).getD (S.length + r) 0 ^^^ 2 ^ j) := by
          rw [hset2, List.drop_left]
        rw [hdropB] at hdrop
        by_cases hrd : r < data.length
        · have hsetB : B.set r ((S ++ B).getD (S.length + r) 0 ^^^ 2 ^ j)
              = data.set r ((S ++ B).getD (S.length + r) 0 ^^^ 2 ^ j)
                ++ [mac k1 nonce data] := by
            rw [hBdef, List.set_append_left _ _ hrd]
          rw [hsetB] at hdrop
          have hinj := List.append_inj' hdrop rfl
          have hmacs : mac k1 nonce data = mac k n d' := by
            have h4 := hinj.2
            simpa using h4
          exact ((mac_injective hmacs).2.2).symm
        · by_cases hrd2 : r = data.length
          · subst hrd2
            have hsetB : B.set data.length
                ((S ++ B).getD (S.length + data.length) 0 ^^^ 2 ^ j)
                = data ++
                  [(S ++ B).getD (S.length + data.length) 0 ^^^ 2 ^ j] := by
              rw [hBdef, List.set_append_right _ _ (Nat.le_refl _)]
              simp
            rw [hsetB] at hdrop
            exact (List.append_inj' hdrop rfl).1.symm
          · have hge : B.length ≤ r := by omega
            rw [List.set_eq_of_length_le hge, hBdef] at hdrop
            exact (List.append_inj' hdrop rfl).1.symm

/-- Witness for claim C2 at a concrete instance: a bit flip in the bulk
ciphertext region of a concrete envelope. -/
theorem claim_C2_witness :
    decryptWith
      (flipBit (encryptWith [5] ([1].map pubKeyOf) 0 0 [1]) 14 0)
      (privKeyOf (([1] : List Nat).get ⟨0, by decide⟩))
      = .error .integrityCheckFailed :=
  (claim_C2_tamper_detection [5] [1] [1] 0 0 0 (by decide) (by decide)).1
    14 0 (by decide) (by decide)

/-- Counterexample to claim C2 as stated: flipping a bit inside the
embedded ContentInfo (position 3, a recipient-identifier byte) makes
decryption fail with `recipientNotFound`, not `integrityCheckFailed`. -/
theorem claim_C2_counterexample :
    3 < 1 + (serCI ⟨List.zipWith (wrapFor 0) [1] ([1].map pubKeyOf),
      0⟩).length
    ∧ decryptWith
        (flipBit (encryptWith [5] ([1].map pubKeyOf) 0 0 [1]) 3 0)
        (privKeyOf 1)
      = .error .recipientNotFound
    ∧ CryptoError.recipientNotFound ≠ CryptoError.integrityCheckFailed := by
  refine ⟨by decide, rfl, by decide⟩

/-- Claim C6: the identifier is the first 8 bytes of SHA-512 of the DER
bytes under the current scheme and the full SHA-256 under the legacy
scheme, and which scheme applies is determined by the instance
configuration alone — two instances with the same configuration compute
identical identifiers on every input. -/
theorem claim_C6_identifier_scheme (c c2 : VirgilCrypto) (der : Bytes) :
    (c.useSha256Identifiers = false →
      calculateKeypairIdentifier c der = (sha512 der).take 8)
    ∧ (c.useSha256Identifiers = true →
      calculateKeypairIdentifier c der = sha256 der)
    ∧ (c.useSha256Identifiers = c2.useSha256Identifiers →
      ∀ der2 : Bytes,
        calculateKeypairIdentifier c der2
          = calculateKeypairIdentifier c2 der2) := by
  refine ⟨?_, ?_, ?_⟩
  · intro h
    simp [calculateKeypairIdentifier, keyIdOf, h]
  · intro h
    simp [calculateKeypairIdentifier, keyIdOf, h]
  · intro h der2
    simp [calculateKeypairIdentifier, keyIdOf, h]

/-- Witness for claim C6 at concrete instances. -/
theorem claim_C6_witness :
    calculateKeypairIdentifier ⟨false⟩ [5] = (sha512 [5]).take 8
    ∧ calculateKeypairIdentifier ⟨true⟩ [5] = sha256 [5]
    ∧ calculateKeypairIdentifier ⟨false⟩ [7]
        = calculateKeypairIdentifier ⟨false⟩ [7] :=
  ⟨(claim_C6_identifier_scheme ⟨false⟩ ⟨false⟩ [5]).1 rfl,
   (claim_C6_identifier_scheme ⟨true⟩ ⟨true⟩ [5]).2.1 rfl,
   (claim_C6_identifier_scheme ⟨false⟩ ⟨false⟩ [5]).2.2 rfl [7]⟩

/-- Claim C8 (amended): the worker catches every native-cipher error and
rejects its deferred with the error's message string — the raw exception
object never propagates, but the rejection value is a plain string, not
a typed failure from the error taxonomy. -/
theorem claim_C8_error_propagation
    (encryptFn : List Bytes → Bytes → Bool → Except NativeError Bytes)
    (d : Bytes) (pw : Option Bytes) (emb : Bool) (e : NativeError)
    (h : encryptFn (workerRecipients pw) (virgilBase64decode d) emb
      = .error e) :
    workerEncrypt encryptFn d pw emb
      = (.rejected (.rawMessage e.message), true)
    ∧ isTypedRejection (workerEncrypt encryptFn d pw emb).1 = false := by
  have h1 : workerEncrypt encryptFn d pw emb
      = (.rejected (.rawMessage e.message), true) := by
    simp only [workerEncrypt, h]
  exact ⟨h1, by rw [h1]; rfl⟩

/-- Witness for claim C8 at a concrete instance. -/
theorem claim_C8_witness :
    workerEncrypt (fun _ _ _ => .error ⟨"nope"⟩) [2] (some [3]) false
      = (.rejected (.rawMessage "nope"), true)
    ∧ isTypedRejection
        (workerEncrypt (fun _ _ _ => .error ⟨"nope"⟩) [2]
          (some [3]) false).1 = false :=
  claim_C8_error_propagation (fun _ _ _ => .error ⟨"nope"⟩) [2]
    (some [3]) false ⟨"nope"⟩ rfl

/-- Counterexample to claim C8 as stated: on a native-cipher error the
worker rejects with the raw message string, which is not a typed failure
of the taxonomy. -/
theorem claim_C8_counterexample :
    (workerEncrypt (fun _ _ _ => .error ⟨"boom"⟩) [1] none true).1
      = .rejected (.rawMessage "boom")
    ∧ isTypedRejection
        (workerEncrypt (fun _ _ _ => .error ⟨"boom"⟩) [1] none true).1
      = false :=
  ⟨rfl, rfl⟩

/-- Claim C9: the `VirgilCipher` instance is deleted on every exit path
of the worker encrypt function — when the native encrypt succeeds and
when it throws alike (the `finally` block). -/
theorem claim_C9_resource_release
    (encryptFn : List Bytes → Bytes → Bool → Except NativeError Bytes)
    (d : Bytes) (pw : Option Bytes) (emb : Bool) :
    (workerEncrypt encryptFn d pw emb).2 = true := by
  simp only [workerEncrypt]
  cases encryptFn (workerRecipients pw) (virgilBase64decode d) emb with
  | ok r => rfl
  | error e => rfl

/-- Claim C10: the returned `recipientId` field is null exactly when the
effective recipient id is absent or falsy; a value that is neither a
Buffer nor an object with a truthy `publicKey` property is rejected; a
truthy non-Buffer `recipientId` alongside a Buffer `publicKey` is
rejected; and the object form passes its `recipientId` property through
with no type check at all. -/
theorem claim_C10_makePublicKey_behaviour :
    (∀ (b : List Nat) (rid : JsVal) (P : PublicKey),
      makePublicKey (.buffer b) rid = .ok P →
      (P.recipientId = none ↔ truthy rid = false))
    ∧ (∀ (k r rid : JsVal) (P : PublicKey),
      makePublicKey (.obj k r) rid = .ok P →
      (P.recipientId = none ↔ truthy r = false))
    ∧ (∀ pk rid : JsVal, isBuffer pk = false →
      (isObjectLike pk && truthy (getPublicKeyProp pk)) = false →
      makePublicKey pk rid = .error "Unexpected type of publicKey argument. Expected publicKey to be a Buffer or a hash with publicKey property.")
    ∧ (∀ (b : List Nat) (rid : JsVal), truthy rid = true →
      isBuffer rid = false →
      makePublicKey (.buffer b) rid = .error "Unexpected type of recipientId argument. Expected recipientId to be a Buffer.")
    ∧ (∀ (k r rid : JsVal), truthy k = true →
      makePublicKey (.obj k r) rid = .ok (mkPublicKey k r)) := by
  refine ⟨?_, ?_, ?_, ?_, ?_⟩
  · intro b rid P h
    have h2 : (if (truthy rid && !isBuffer rid) = true then
        (Except.error "Unexpected type of recipientId argument. Expected recipientId to be a Buffer." : Except String PublicKey)
      else .ok (mkPublicKey (.buffer b) rid)) = .ok P := h
    cases ht : truthy rid with
    | false =>
      rw [ht] at h2
      simp only [Bool.false_and, Bool.false_eq_true, if_false,
        Except.ok.injEq] at h2
      subst h2
      simp [mkPublicKey, ht]
    | true =>
      cases hb : isBuffer rid with
      | false =>
        rw [ht, hb] at h2
        simp at h2
      | true =>
        rw [ht, hb] at h2
        simp only [Bool.not_true, Bool.and_false, Bool.false_eq_true,
          if_false, Except.ok.injEq] at h2
        subst h2
        simp [mkPublicKey, ht]
  · intro k r rid P h
    have h2 : (if truthy k = true then
        (Except.ok (mkPublicKey k r) : Except String PublicKey)
      else .error "Unexpected type of publicKey argument. Expected publicKey to be a Buffer or a hash with publicKey property.") = .ok P := h
    cases hk : truthy k with
    | false =>
      rw [hk] at h2
      simp at h2
    | true =>
      rw [if_pos hk] at h2
      simp only [Except.ok.injEq] at h2
      subst h2
      cases hr : truthy r with
      | false => simp [mkPublicKey, hr]
      | true => simp [mkPublicKey, hr]
  · intro pk rid h1 h2
    unfold makePublicKey
    rw [h1, h2]
    simp
  · intro b rid ht hb
    have h2 : makePublicKey (.buffer b) rid
        = (if (truthy rid && !isBuffer rid) = true then
            .error "Unexpected type of recipientId argument. Expected recipientId to be a Buffer."
          else .ok (mkPublicKey (.buffer b) rid)) := rfl
    rw [h2, ht, hb]
    simp
  · intro k r rid hk
    have h2 : makePublicKey (.obj k r) rid
        = (if truthy k = true then .ok (mkPublicKey k r)
          else .error "Unexpected type of publicKey argument. Expected publicKey to be a Buffer or a hash with publicKey property.") := rfl
    rw [h2, if_pos hk]

/-- Witness for claim C10 at concrete instances of each conjunct. -/
theorem claim_C10_witness :
    ((mkPublicKey (JsVal.buffer [1]) JsVal.undefined).recipientId = none ↔
      truthy JsVal.undefined = false)
    ∧ makePublicKey JsVal.nullv JsVal.undefined
      = .error "Unexpected type of publicKey argument. Expected publicKey to be a Buffer or a hash with publicKey property."
    ∧ makePublicKey (JsVal.buffer [1]) (JsVal.str "x")
      = .error "Unexpected type of recipientId argument. Expected recipientId to be a Buffer."
    ∧ makePublicKey (JsVal.obj (JsVal.buffer [2]) (JsVal.str "y"))
        JsVal.undefined
      = .ok (mkPublicKey (JsVal.buffer [2]) (JsVal.str "y")) :=
  ⟨claim_C10_makePublicKey_behaviour.1 [1] JsVal.undefined
      (mkPublicKey (JsVal.buffer [1]) JsVal.undefined) rfl,
   claim_C10_makePublicKey_behaviour.2.2.1 JsVal.nullv JsVal.undefined rfl rfl,
   claim_C10_makePublicKey_behaviour.2.2.2.1 [1] (JsVal.str "x") rfl rfl,
   claim_C10_makePublicKey_behaviour.2.2.2.2 (JsVal.buffer [2])
      (JsVal.str "y") JsVal.undefined rfl⟩

end VirgilSpec

